import Mathlib

/-!
Verification of the "remember-scroll-position" plugin core: the bounded,
persisted key-value `PositionStore` and the `PositionTracker` capture/restore
state machine.  Definitions are shallow embeddings of the TypeScript source
(`src/store.ts` variants and `src/tracker.ts` variants).  JavaScript objects
with string keys preserve insertion order for non-numeric keys, so the store
mapping is embedded as an association list; JS numbers used by the code
(timestamps, scroll offsets, counters) are embedded as `Int`.
-/

namespace RememberScroll

/-- Embeds the `{line, ch}` editor position (source `EditorPosition`). -/
structure EditorPos where
  line : Int
  ch : Int
deriving Repr, DecidableEq

/-- Embeds the cursor selection range (source `EditorRange`); the source field
names are `from` and `to`, renamed `fromPos`/`toPos` because `from` is a Lean
keyword. -/
structure EditorRange where
  fromPos : EditorPos
  toPos : EditorPos
deriving Repr, DecidableEq

/-- Embeds `SavedPosition` from `types.ts`: timestamp plus optional scroll,
scrollTop and cursor fields (optional fields are `undefined`-able in TS). -/
structure SavedPosition where
  timestamp : Int
  scroll : Option Int
  scrollTop : Option Int
  cursor : Option EditorRange
deriving Repr, DecidableEq

/-- The store's in-memory mapping `Record<string, SavedPosition>`, embedded as
an association list in insertion order (JS object semantics for string keys). -/
abbrev Positions := List (String × SavedPosition)

/-- The keys of the mapping, `Object.keys(this.positions)`. -/
def keysOf (ps : Positions) : List String := ps.map Prod.fst

/-- Well-formedness of the embedding: a JS object has no duplicate keys. -/
abbrev KeysNodup (ps : Positions) : Prop := (keysOf ps).Nodup

/-- Pairwise-distinct timestamps across the mapping (the eviction claim's
"N most recent" is only well defined without timestamp ties; the spec makes
tie-breaks explicitly unspecified). -/
abbrev DistinctTs (ps : Positions) : Prop :=
  (ps.map (fun p => p.2.timestamp)).Nodup

namespace PositionStore

/-- `get(key)`: `return this.positions[key]` — pure lookup. -/
def get : Positions → String → Option SavedPosition
  | [], _ => none
  | (k, v) :: ps, key => if k = key then some v else get ps key

/-- `this.positions[key] = position`: JS upsert.  An existing key keeps its
insertion position; a new key is appended at the end. -/
def upsert : Positions → String → SavedPosition → Positions
  | [], key, pos => [(key, pos)]
  | (k, v) :: ps, key, pos =>
    if k = key then (k, pos) :: ps else (k, v) :: upsert ps key pos

/-- `delete this.positions[key]`: removes the entry for `key` (a JS object has
at most one entry per key, so filtering is exact on well-formed states). -/
def deleteKey (ps : Positions) (key : String) : Positions :=
  ps.filter (fun p => p.1 != key)

/-- `(this.positions[a].timestamp ?? 0)` — the eviction comparator's view of a
key's timestamp. -/
def tsOf (ps : Positions) (k : String) : Int :=
  match get ps k with
  | some p => p.timestamp
  | none => 0

/-- One insertion step of the (stable) ascending-by-timestamp key sort used by
`evict()`'s `keys.sort((a, b) => ts a - ts b)`. -/
def insertByTs (ts : String → Int) (k : String) : List String → List String
  | [] => [k]
  | x :: xs => if ts k ≤ ts x then k :: x :: xs else x :: insertByTs ts k xs

/-- `keys.sort((a, b) => (positions[a].timestamp ?? 0) - (positions[b].timestamp ?? 0))`:
stable sort of the keys by timestamp ascending (oldest first). -/
def sortByTs (ts : String → Int) (ks : List String) : List String :=
  ks.foldr (insertByTs ts) []

/-- `evict()`: if a positive maximum is configured and the entry count exceeds
it, sort keys by timestamp ascending and delete the oldest `count - max`. -/
def evict (maxPositions : Nat) (ps : Positions) : Positions :=
  if maxPositions = 0 then ps
  else
    let keys := keysOf ps
    if keys.length ≤ maxPositions then ps
    else
      let sorted := sortByTs (tsOf ps) keys
      let toRemove := sorted.take (keys.length - maxPositions)
      toRemove.foldl deleteKey ps

/-- `set(key, position)`: upsert then evict (the dirty flag and debounced disk
write do not affect the mapping). -/
def set (maxPositions : Nat) (ps : Positions) (key : String)
    (pos : SavedPosition) : Positions :=
  evict maxPositions (upsert ps key pos)

/-- `rename(oldKey, newKey)`: if `oldKey` exists, `positions[newKey] =
positions[oldKey]` followed by `delete positions[oldKey]`; no-op otherwise. -/
def rename (ps : Positions) (oldKey newKey : String) : Positions :=
  match get ps oldKey with
  | some v => deleteKey (upsert ps newKey v) oldKey
  | none => ps

end PositionStore

/-! ## JSON model for `load()` / `flush()`

`JSON.parse` / `JSON.stringify` are host builtins; `load()` assigns whatever
`JSON.parse` returns to `this.positions` without structural validation, so the
post-`load` store contents are modelled as a dynamic JSON value. -/

/-- A JavaScript JSON value (result of `JSON.parse`). -/
inductive JsonValue where
  | null : JsonValue
  | bool (b : Bool) : JsonValue
  | num (n : Int) : JsonValue
  | str (s : String) : JsonValue
  | arr (elems : List JsonValue) : JsonValue
  | obj (fields : List (String × JsonValue)) : JsonValue
deriving Repr

/-- Skips JSON whitespace. -/
def skipWs : List Char → List Char
  | [] => []
  | c :: cs =>
    if c = ' ' ∨ c = '\n' ∨ c = '\t' ∨ c = '\r' then skipWs cs else c :: cs

/-- Splits a leading run of decimal digits from the input. -/
def takeDigits : List Char → (List Char × List Char)
  | [] => ([], [])
  | c :: cs =>
    if c.isDigit then
      let (ds, rest) := takeDigits cs
      (c :: ds, rest)
    else ([], c :: cs)

/-- Digit characters to the natural number they denote. -/
def digitsToNat (ds : List Char) : Nat :=
  ds.foldl (fun acc c => acc * 10 + (c.toNat - 48)) 0

/-- Reads the body of a JSON string literal up to the closing quote
(escape sequences unsupported: they make this model parser fail where
`JSON.parse` may succeed, which only weakens it, never strengthens it). -/
def takeStringChars : List Char → Option (String × List Char)
  | [] => none
  | c :: cs =>
    if c = '"' then some ("", cs)
    else if c = '\\' then none
    else
      match takeStringChars cs with
      | some (s, rest) => some (String.mk (c :: s.data), rest)
      | none => none

mutual

/-- Model of `JSON.parse` on one value (fuelled recursion; integer numbers
only — a strict subset of real JSON, adequate for the inputs probed below). -/
def parseValue : Nat → List Char → Option (JsonValue × List Char)
  | 0, _ => none
  | fuel + 1, input =>
    match skipWs input with
    | [] => none
    | c :: cs =>
      if c = 'n' then
        match cs with
        | 'u' :: 'l' :: 'l' :: rest => some (.null, rest)
        | _ => none
      else if c = 't' then
        match cs with
        | 'r' :: 'u' :: 'e' :: rest => some (.bool true, rest)
        | _ => none
      else if c = 'f' then
        match cs with
        | 'a' :: 'l' :: 's' :: 'e' :: rest => some (.bool false, rest)
        | _ => none
      else if c = '"' then
        match takeStringChars cs with
        | some (s, rest) => some (.str s, rest)
        | none => none
      else if c = '-' then
        match takeDigits cs with
        | ([], _) => none
        | (ds, rest) => some (.num (-(digitsToNat ds : Int)), rest)
      else if c.isDigit then
        match takeDigits (c :: cs) with
        | (ds, rest) => some (.num (digitsToNat ds), rest)
      else if c = '[' then
        match skipWs cs with
        | ']' :: rest => some (.arr [], rest)
        | rest =>
          match parseArrayItems fuel rest with
          | some (elems, rest') => some (.arr elems, rest')
          | none => none
      else if c = '{' then
        match skipWs cs with
        | '}' :: rest => some (.obj [], rest)
        | rest =>
          match parseObjectItems fuel rest with
          | some (fields, rest') => some (.obj fields, rest')
          | none => none
      else none

/-- Comma-separated JSON values followed by `]`. -/
def parseArrayItems : Nat → List Char → Option (List JsonValue × List Char)
  | 0, _ => none
  | fuel + 1, input =>
    match parseValue fuel input with
    | some (v, rest) =>
      match skipWs rest with
      | ',' :: rest' =>
        match parseArrayItems fuel rest' with
        | some (vs, rest'') => some (v :: vs, rest'')
        | none => none
      | ']' :: rest' => some ([v], rest')
      | _ => none
    | none => none

/-- Comma-separated `"key": value` members followed by `}`. -/
def parseObjectItems : Nat → List Char → Option (List (String × JsonValue) × List Char)
  | 0, _ => none
  | fuel + 1, input =>
    match skipWs input with
    | '"' :: cs =>
      match takeStringChars cs with
      | some (k, rest) =>
        match skipWs rest with
        | ':' :: rest' =>
          match parseValue fuel rest' with
          | some (v, rest'') =>
            match skipWs rest'' with
            | ',' :: rest3 =>
              match parseObjectItems fuel rest3 with
              | some (fs, rest4) => some ((k, v) :: fs, rest4)
              | none => none
            | '}' :: rest3 => some ([(k, v)], rest3)
            | _ => none
          | none => none
        | _ => none
      | none => none
    | _ => none

end

/-- Model of `JSON.parse(s)`: `none` means the parse throws `SyntaxError`. -/
def jsonParse (s : String) : Option JsonValue :=
  match parseValue (4 * s.length + 8) s.data with
  | some (v, rest) => if skipWs rest = [] then some v else none
  | none => none

namespace PositionStore

/-- `load()` from `store.ts`: reads the persisted file if persistence is on.
`fileExists` is the adapter's `exists` answer, `readResult` the adapter read
(`none` = the read threw), `parse` the host's `JSON.parse` (`none` = throws),
`prev` the store contents before the call (`{}` at startup).  A thrown read or
parse is caught and resets the store to `{}`; a successful parse is assigned
unvalidated. -/
def load (persistToDisk : Bool) (fileExists : Bool) (readResult : Option String)
    (parse : String → Option JsonValue) (prev : JsonValue) : JsonValue :=
  if !persistToDisk then prev
  else if !fileExists then prev
  else
    match readResult with
    | none => JsonValue.obj []
    | some data =>
      if data = "" then prev
      else
        match parse data with
        | none => JsonValue.obj []
        | some j => j

/-- JSON string literal without escaping (keys and field names used here never
need escapes). -/
def jsonQuote (s : String) : String := "\"" ++ s ++ "\""

/-- Serializes one optional numeric field the way `JSON.stringify` does:
`undefined` fields are omitted. -/
def optIntField (name : String) (v : Option Int) : List String :=
  match v with
  | some n => [jsonQuote name ++ ":" ++ toString n]
  | none => []

/-- Serializes an `EditorPos` as `JSON.stringify` would. -/
def stringifyEditorPos (p : EditorPos) : String :=
  "\x7b" ++ jsonQuote "line" ++ ":" ++ toString p.line ++ ","
    ++ jsonQuote "ch" ++ ":" ++ toString p.ch ++ "\x7d"

/-- Serializes a `SavedPosition` as `JSON.stringify` would (fields that are
`undefined` are omitted; source field names `from`/`to`). -/
def stringifySaved (p : SavedPosition) : String :=
  let cursorField :=
    match p.cursor with
    | some c =>
      [jsonQuote "cursor" ++ ":" ++ "\x7b" ++ jsonQuote "from" ++ ":"
        ++ stringifyEditorPos c.fromPos ++ "," ++ jsonQuote "to" ++ ":"
        ++ stringifyEditorPos c.toPos ++ "\x7d"]
    | none => []
  "\x7b" ++ String.intercalate ","
    ([jsonQuote "timestamp" ++ ":" ++ toString p.timestamp]
      ++ optIntField "scroll" p.scroll ++ optIntField "scrollTop" p.scrollTop
      ++ cursorField) ++ "\x7d"

/-- `JSON.stringify(this.positions)` for a well-formed mapping. -/
def stringifyPositions (ps : Positions) : String :=
  "\x7b" ++ String.intercalate ","
    (ps.map (fun p => jsonQuote p.1 ++ ":" ++ stringifySaved p.2)) ++ "\x7d"

/-- `flush()`: cancels the pending debounced write and, if dirty (and
persistence is on), writes immediately.  The result is the written payload
(`none` = nothing written); serialization is total, so the write never
throws on the store's side. -/
def flush (ps : Positions) (dirty : Bool) (persistToDisk : Bool) : Option String :=
  if dirty then
    (if persistToDisk then some (stringifyPositions ps) else none)
  else none

end PositionStore

/-! ## PositionTracker

The tracker reacts to host events.  A host view is embedded as the snapshot of
everything the tracker reads from it: view type tag, mode, file path, the
split-ancestry child-index path (what the `getSplitId` parent walk collects,
top-down), cursor, and the three scroll sources.  `Option` fields model
`undefined`-able host values. -/

/-- Snapshot of the host view state the tracker reads. -/
structure ViewSnapshot where
  /-- `view.getViewType()` (`"markdown"` for supported views). -/
  viewType : String
  /-- `view.getMode()` (`"source"` or `"preview"`). -/
  mode : String
  /-- `view.file?.path` (`none` when the view has no file). -/
  filePath : Option String
  /-- Child indices collected by `getSplitId`'s walk from the topmost split
  below the workspace root down to the leaf's parent (`path` after the loop). -/
  splitPath : List Nat
  /-- `editor.getCursor("head")`. -/
  cursorHead : EditorPos
  /-- `editor.getCursor("anchor")`. -/
  cursorAnchor : EditorPos
  /-- `view.getEphemeralState()?.scroll`. -/
  ephemeralScroll : Option Int
  /-- `editor.getScrollInfo()?.top`. -/
  scrollInfoTop : Option Int
  /-- `.markdown-preview-view` element's `scrollTop` (`none` = no element). -/
  previewScrollTop : Option Int
deriving Repr, DecidableEq

namespace PositionTracker

/-- `getSplitId(leaf)`: joins the collected child-index path with `-`,
returning `""` when every index is 0 (the early `!leaf?.parent?.parent`
return coincides with the empty-path case of `path.every(i => i === 0)`). -/
def getSplitId (path : List Nat) : String :=
  if path.all (fun i => i == 0) then ""
  else String.intercalate "-" (path.map (fun i => toString i))

/-- The key produced by `getFileKey` for a file path at a split path:
`` `${filePath}#${splitId}` `` when the split id is non-empty (truthy),
the bare file path otherwise. -/
def fileKeyFor (fp : String) (path : List Nat) : String :=
  let splitId := getSplitId path
  if splitId = "" then fp else fp ++ "#" ++ splitId

/-- `getFileKey(view)`: `null` when the view has no file. -/
def getFileKey (view : ViewSnapshot) : Option String :=
  match view.filePath with
  | none => none
  | some fp => some (fileKeyFor fp view.splitPath)

/-- `capturePosition(view)`: source-mode markdown views yield a record with
the ephemeral scroll, editor scroll top and the anchor→head selection;
reading-mode views yield only the preview element's `scrollTop` (or nothing
when the element is missing); non-markdown views yield nothing. -/
def capturePosition (now : Int) (view : ViewSnapshot) : Option SavedPosition :=
  if view.viewType = "markdown" then
    if view.mode = "source" then
      some { timestamp := now, scroll := view.ephemeralScroll,
             scrollTop := view.scrollInfoTop,
             cursor := some { fromPos := view.cursorAnchor,
                              toPos := view.cursorHead } }
    else
      match view.previewScrollTop with
      | some st =>
        some { timestamp := now, scroll := none, scrollTop := some st,
               cursor := none }
      | none => none
  else none

/-- `saveCurrentPosition()` (part_003/part_004 form; the `src/tracker.ts`
form differs only in resolving the active view directly, with the identical
guard): guarded by `!this.layoutReady || this.filesOpening > 0`; resolves the
most recent leaf, requires a markdown view with a file, derives the key,
captures, and writes to the store.  This is the routine behind the scroll
handler, the editor-change handler, the periodic safety interval, and (in
`src/tracker.ts`) the debounced active-leaf-change save. -/
def saveCurrentPosition (layoutReady : Bool) (filesOpening : Int)
    (recentLeaf : Option ViewSnapshot) (now : Int) (maxP : Nat)
    (store : Positions) : Positions :=
  if layoutReady = false ∨ 0 < filesOpening then store
  else
    match recentLeaf with
    | none => store
    | some view =>
      if view.viewType ≠ "markdown" then store
      else
        match view.filePath with
        | none => store
        | some _ =>
          match getFileKey view with
          | none => store
          | some key =>
            match capturePosition now view with
            | some pos => PositionStore.set maxP store key pos
            | none => store

/-- `handleScroll(event)`: same guard, then `saveCurrentPosition()`. -/
def handleScroll (layoutReady : Bool) (filesOpening : Int)
    (recentLeaf : Option ViewSnapshot) (now : Int) (maxP : Nat)
    (store : Positions) : Positions :=
  if layoutReady = false ∨ 0 < filesOpening then store
  else saveCurrentPosition layoutReady filesOpening recentLeaf now maxP store

/-- `saveLeafPosition(leaf)` (the part_003 tracker variant): saves a specific
leaf when switching away — with NO `layoutReady`/`filesOpening` guard. -/
def saveLeafPosition (leaf : Option ViewSnapshot) (now : Int) (maxP : Nat)
    (store : Positions) : Positions :=
  match leaf with
  | none => store
  | some view =>
    match view.filePath with
    | none => store
    | some _ =>
      match getFileKey view with
      | none => store
      | some key =>
        match capturePosition now view with
        | some pos => PositionStore.set maxP store key pos
        | none => store

/-- Tracker state touched by the `active-leaf-change` handler. -/
structure TrackerState where
  store : Positions
  filesOpening : Int
  layoutReady : Bool
  lastLeaf : Option ViewSnapshot
  /-- Fire times of the pending 1000 ms safety-expiry decrements the handler
  has scheduled (`window.setTimeout(..., 1000)`). -/
  pendingDecAt : List Int
deriving Repr

/-- The `active-leaf-change` handler of the part_003 tracker variant: cancels
the debounced save, saves the outgoing `lastLeaf` via `saveLeafPosition`
(unconditionally — before any suppression check), retargets `lastLeaf`,
increments `filesOpening` and schedules the 1000 ms safety decrement. -/
def activeLeafChange (st : TrackerState) (newLeaf : Option ViewSnapshot)
    (now : Int) (maxP : Nat) : TrackerState :=
  let store1 :=
    match st.lastLeaf with
    | some l =>
      if l.filePath.isSome then saveLeafPosition (some l) now maxP st.store
      else st.store
    | none => st.store
  let lastLeaf1 :=
    match newLeaf with
    | some v => if v.viewType = "markdown" then some v else none
    | none => none
  { store := store1, filesOpening := st.filesOpening + 1,
    layoutReady := st.layoutReady, lastLeaf := lastLeaf1,
    pendingDecAt := st.pendingDecAt ++ [now + 1000] }

/-- The store-visible effect of the part_004 restore path once it reaches the
apply step: `applyPosition` mutates only the view, then the just-applied
record is re-written under the re-derived key
(`const rKey = this.getFileKey(leaf.view); if (rKey) this.store.set(rKey, saved)`). -/
def restoreApply (store : Positions) (view : ViewSnapshot)
    (saved : SavedPosition) (maxP : Nat) : Positions :=
  match getFileKey view with
  | some rKey => PositionStore.set maxP store rKey saved
  | none => store

/-- The view-side state the apply step mutates: the editor selection (with
the `scrollIntoView` flag), the ephemeral scroll value, and the preview
surface's `scrollTop`. -/
structure AppliedView where
  selection : Option EditorRange
  scrolledIntoView : Bool
  ephemeralScroll : Option Int
  previewScrollTop : Option Int
deriving Repr, DecidableEq

/-- `applyPosition(view, saved)` of `src/tracker.ts` (lines 282-306): in a
markdown source-mode view, if a cursor was saved and cursor-restore is
enabled, set the selection and scroll it into view; ELSE IF a scroll value
was saved, set the ephemeral scroll state; in reading mode, set the preview
element's `scrollTop` when a value was saved and the element exists.  The
store is never touched. -/
def applyPositionTracker (restoreCursor : Bool) (view : ViewSnapshot)
    (saved : SavedPosition) (prior : AppliedView) : AppliedView :=
  if view.viewType = "markdown" then
    if view.mode = "source" then
      if saved.cursor.isSome && restoreCursor then
        { prior with selection := saved.cursor, scrolledIntoView := true }
      else
        match saved.scroll with
        | some sc => { prior with ephemeralScroll := some sc }
        | none => prior
    else
      match saved.scrollTop, view.previewScrollTop with
      | some st, some _ => { prior with previewScrollTop := some st }
      | _, _ => prior
  else prior

/-- Outcome of a restore completion step: the mutated view state, the store
mapping afterwards, the `Store.set` calls the step performed, and the
suppression counter afterwards. -/
structure RestoreStepResult where
  view : AppliedView
  store : Positions
  setCalls : List (String × SavedPosition)
  filesOpening : Int
deriving Repr

/-- The completion step of the `src/tracker.ts` restore path (lines 270-273):
`this.applyPosition(leaf.view, saved); this.filesOpening--;` — the step
mutates only the view and the counter; it contains no `Store.set` (nor any
other store) call, so the call list is empty and the mapping passes through
untouched.  (The part_003 variant's completion step, lines 342-348, likewise
performs no store write.) -/
def restoreApplyTracker (restoreCursor : Bool) (store : Positions)
    (view : ViewSnapshot) (saved : SavedPosition) (prior : AppliedView)
    (filesOpening : Int) : RestoreStepResult :=
  { view := applyPositionTracker restoreCursor view saved prior,
    store := store, setCalls := [], filesOpening := filesOpening - 1 }

end PositionTracker

/-! ## The suppression counter

`filesOpening` is a JS number; part_003/part_004 decrement it with
`Math.max(0, filesOpening - 1)`, `src/tracker.ts` with the raw
`this.filesOpening--`.  Handler interleavings are embedded as event traces. -/

/-- An increment (`filesOpening++`) or a clamped decrement
(`filesOpening = Math.max(0, filesOpening - 1)`). -/
inductive CounterEvent where
  | inc : CounterEvent
  | dec : CounterEvent
deriving Repr, DecidableEq

/-- One event applied to the counter. -/
def counterStep (c : Int) : CounterEvent → Int
  | .inc => c + 1
  | .dec => max 0 (c - 1)

/-- The counter after a trace of events. -/
def runCounter (c : Int) : List CounterEvent → Int
  | [] => c
  | e :: es => runCounter (counterStep c e) es

/-- Increments minus decrements in a trace. -/
def balance : List CounterEvent → Int
  | [] => 0
  | CounterEvent.inc :: es => balance es + 1
  | CounterEvent.dec :: es => balance es - 1

/-- An increment (`filesOpening++`) or the `src/tracker.ts` raw decrement
(`this.filesOpening--`, no clamping). -/
inductive RawEvent where
  | inc : RawEvent
  | dec : RawEvent
deriving Repr, DecidableEq

/-- One raw event applied to the counter. -/
def rawStep (c : Int) : RawEvent → Int
  | .inc => c + 1
  | .dec => c - 1

/-- The counter after a trace of raw events. -/
def runRaw (c : Int) : List RawEvent → Int
  | [] => c
  | e :: es => runRaw (rawStep c e) es

/-- Increments minus decrements in a raw trace. -/
def rawBalance : List RawEvent → Int
  | [] => 0
  | RawEvent.inc :: es => rawBalance es + 1
  | RawEvent.dec :: es => rawBalance es - 1

/-- The `src/tracker.ts` restore polling loop: `tryRestore` re-schedules
itself on the next animation frame while `leaf.working && attempts++ <
maxAttempts` (post-increment: the old value is compared, then incremented).
`working n` is the leaf's loading flag at the n-th attempt; the result is the
number of frames spent polling before the position is applied and the counter
decremented. -/
def pollFrames (working : Nat → Bool) (attempts : Nat) : Nat :=
  if h : working attempts = true ∧ attempts < 50 then
    pollFrames working (attempts + 1) + 1
  else 0
termination_by 50 - attempts
decreasing_by omega

/-! ## Concrete instances used by scenario conjuncts, counterexamples and
witnesses -/

/-- The spec scenario's `{timestamp: 1, ...}`. -/
def posA : SavedPosition :=
  { timestamp := 1, scroll := some 10, scrollTop := none, cursor := none }

/-- The spec scenario's `{timestamp: 2, ...}`. -/
def posB : SavedPosition :=
  { timestamp := 2, scroll := some 20, scrollTop := none, cursor := none }

/-- The spec scenario's `{timestamp: 3, ...}`. -/
def posC : SavedPosition :=
  { timestamp := 3, scroll := some 30, scrollTop := none, cursor := none }

/-- A markdown source-mode view with every positional source available. -/
def viewDemo : ViewSnapshot :=
  { viewType := "markdown", mode := "source", filePath := some "note.md",
    splitPath := [], cursorHead := { line := 3, ch := 5 },
    cursorAnchor := { line := 3, ch := 5 }, ephemeralScroll := some 120,
    scrollInfoTop := some 480, previewScrollTop := none }

/-- The record `capturePosition 50 viewDemo` produces. -/
def recDemo : SavedPosition :=
  { timestamp := 50, scroll := some 120, scrollTop := some 480,
    cursor := some { fromPos := { line := 3, ch := 5 },
                     toPos := { line := 3, ch := 5 } } }

/-- A markdown source-mode view where both the ephemeral scroll value and the
editor scroll info are unavailable (`undefined`). -/
def viewNoScroll : ViewSnapshot :=
  { viewType := "markdown", mode := "source", filePath := some "note.md",
    splitPath := [], cursorHead := { line := 2, ch := 0 },
    cursorAnchor := { line := 1, ch := 4 }, ephemeralScroll := none,
    scrollInfoTop := none, previewScrollTop := none }

/-- The record `capturePosition 7 viewNoScroll` produces: no positional
fields at all. -/
def recNoScroll : SavedPosition :=
  { timestamp := 7, scroll := none, scrollTop := none,
    cursor := some { fromPos := { line := 1, ch := 4 },
                     toPos := { line := 2, ch := 0 } } }

/-- A suppressed tracker state (`filesOpening = 1`, layout not settled) with a
departing markdown leaf. -/
def st0 : PositionTracker.TrackerState :=
  { store := [], filesOpening := 1, layoutReady := false,
    lastLeaf := some viewDemo, pendingDecAt := [] }

/-- The view-side state of a freshly-opened view before the apply step (the
transient scroll-to-zero state the suppression window guards against). -/
def applied0 : PositionTracker.AppliedView :=
  { selection := none, scrolledIntoView := false, ephemeralScroll := some 0,
    previewScrollTop := none }

/-! ## Lemmas: the store mapping -/

theorem nodup_map_inj {α β : Type} {f : α → β} {l : List α}
    (h : (l.map f).Nodup) {a b : α} (ha : a ∈ l) (hb : b ∈ l)
    (hf : f a = f b) : a = b := by
  induction l with
  | nil => simp at ha
  | cons x xs ih =>
    rw [List.map_cons, List.nodup_cons] at h
    rcases List.mem_cons.mp ha with rfl | ha' <;>
      rcases List.mem_cons.mp hb with rfl | hb'
    · rfl
    · exact absurd (hf ▸ List.mem_map_of_mem f hb') h.1
    · exact absurd (hf ▸ List.mem_map_of_mem f ha') h.1
    · exact ih h.2 ha' hb'

namespace PositionStore

theorem keysOf_length (ps : Positions) : (keysOf ps).length = ps.length :=
  List.length_map ps Prod.fst

theorem get_upsert_self (ps : Positions) (k : String) (v : SavedPosition) :
    get (upsert ps k v) k = some v := by
  induction ps with
  | nil => simp [upsert, get]
  | cons p ps ih =>
    obtain ⟨a, b⟩ := p
    by_cases h : a = k
    · simp [upsert, get, h]
    · simp [upsert, get, h, ih]

theorem get_upsert_ne (ps : Positions) (k k' : String) (v : SavedPosition)
    (h : k' ≠ k) : get (upsert ps k v) k' = get ps k' := by
  have hkk : ¬k = k' := fun hh => h hh.symm
  induction ps with
  | nil => simp [upsert, get, hkk]
  | cons p ps ih =>
    obtain ⟨a, b⟩ := p
    by_cases ha : a = k
    · subst ha
      simp [upsert, get, hkk]
    · simp only [upsert, if_neg ha, get]
      by_cases ha' : a = k' <;> simp [ha', ih]

theorem upsert_self_eq (ps : Positions) (k : String) (v : SavedPosition)
    (h : get ps k = some v) : upsert ps k v = ps := by
  induction ps with
  | nil => simp [get] at h
  | cons p ps ih =>
    obtain ⟨a, b⟩ := p
    by_cases ha : a = k
    · subst ha
      simp [get] at h
      simp [upsert, h]
    · simp [get, ha] at h
      simp [upsert, ha, ih h]

theorem keysOf_cons (a : String) (b : SavedPosition) (ps : Positions) :
    keysOf ((a, b) :: ps) = a :: keysOf ps := rfl

theorem keysOf_upsert_mem (ps : Positions) (k : String) (v : SavedPosition)
    (h : k ∈ keysOf ps) : keysOf (upsert ps k v) = keysOf ps := by
  induction ps with
  | nil => simp [keysOf] at h
  | cons p ps ih =>
    obtain ⟨a, b⟩ := p
    by_cases ha : a = k
    · simp [upsert, ha, keysOf]
    · rw [keysOf_cons, List.mem_cons] at h
      rcases h with h | h
      · exact absurd h.symm ha
      · simp [upsert, ha, keysOf_cons, ih h]

theorem keysOf_upsert_not_mem (ps : Positions) (k : String) (v : SavedPosition)
    (h : k ∉ keysOf ps) : keysOf (upsert ps k v) = keysOf ps ++ [k] := by
  induction ps with
  | nil => simp [upsert, keysOf]
  | cons p ps ih =>
    obtain ⟨a, b⟩ := p
    rw [keysOf_cons, List.mem_cons] at h
    push_neg at h
    have hak : ¬a = k := fun hh => h.1 hh.symm
    simp [upsert, hak, keysOf_cons, ih h.2]

theorem keysNodup_upsert (ps : Positions) (k : String) (v : SavedPosition)
    (h : KeysNodup ps) : KeysNodup (upsert ps k v) := by
  by_cases hm : k ∈ keysOf ps
  · unfold KeysNodup
    rw [keysOf_upsert_mem ps k v hm]
    exact h
  · unfold KeysNodup
    rw [keysOf_upsert_not_mem ps k v hm, List.nodup_append]
    refine ⟨h, List.nodup_singleton k, ?_⟩
    intro x hx
    simp only [List.mem_singleton]
    intro hxk
    exact hm (hxk ▸ hx)

theorem length_upsert_mem (ps : Positions) (k : String) (v : SavedPosition)
    (h : k ∈ keysOf ps) : (upsert ps k v).length = ps.length := by
  rw [← keysOf_length, ← keysOf_length ps, keysOf_upsert_mem ps k v h]

theorem deleteKey_cons (a : String) (b : SavedPosition) (ps : Positions)
    (k : String) :
    deleteKey ((a, b) :: ps) k =
      if a = k then deleteKey ps k else (a, b) :: deleteKey ps k := by
  by_cases ha : a = k <;> simp [deleteKey, List.filter_cons, ha]

theorem get_deleteKey_self (ps : Positions) (k : String) :
    get (deleteKey ps k) k = none := by
  induction ps with
  | nil => simp [deleteKey, get]
  | cons p ps ih =>
    obtain ⟨a, b⟩ := p
    rw [deleteKey_cons]
    by_cases ha : a = k
    · rw [if_pos ha]
      exact ih
    · rw [if_neg ha]
      simpa [get, ha] using ih

theorem get_deleteKey_ne (ps : Positions) (k k' : String) (h : k' ≠ k) :
    get (deleteKey ps k) k' = get ps k' := by
  induction ps with
  | nil => simp [deleteKey, get]
  | cons p ps ih =>
    obtain ⟨a, b⟩ := p
    rw [deleteKey_cons]
    by_cases ha : a = k
    · rw [if_pos ha, ih]
      subst ha
      have hak : ¬a = k' := fun hh => h hh.symm
      simp [get, hak]
    · rw [if_neg ha]
      by_cases ha' : a = k' <;> simp [get, ha', ih]

theorem deleteKey_not_mem (ps : Positions) (k : String) (h : k ∉ keysOf ps) :
    deleteKey ps k = ps := by
  induction ps with
  | nil => simp [deleteKey]
  | cons p ps ih =>
    obtain ⟨a, b⟩ := p
    rw [keysOf_cons, List.mem_cons] at h
    push_neg at h
    have hak : ¬a = k := fun hh => h.1 hh.symm
    rw [deleteKey_cons, if_neg hak, ih h.2]

theorem keysOf_deleteKey (ps : Positions) (k : String) :
    keysOf (deleteKey ps k) = (keysOf ps).filter (fun x => x != k) := by
  induction ps with
  | nil => simp [deleteKey, keysOf]
  | cons p ps ih =>
    obtain ⟨a, b⟩ := p
    rw [deleteKey_cons, keysOf_cons, List.filter_cons]
    by_cases ha : a = k
    · simp [ha, ih]
    · simp [ha, keysOf_cons, ih]

theorem keysNodup_deleteKey (ps : Positions) (k : String) (h : KeysNodup ps) :
    KeysNodup (deleteKey ps k) := by
  unfold KeysNodup
  rw [keysOf_deleteKey]
  exact h.filter _

theorem length_deleteKey_mem (ps : Positions) (k : String)
    (hnd : KeysNodup ps) (h : k ∈ keysOf ps) :
    (deleteKey ps k).length + 1 = ps.length := by
  induction ps with
  | nil => simp [keysOf] at h
  | cons p ps ih =>
    obtain ⟨a, b⟩ := p
    unfold KeysNodup at hnd
    rw [keysOf_cons, List.nodup_cons] at hnd
    rw [keysOf_cons, List.mem_cons] at h
    rw [deleteKey_cons]
    by_cases ha : a = k
    · rw [if_pos ha]
      subst ha
      rw [deleteKey_not_mem ps a hnd.1]
      simp
    · rw [if_neg ha]
      rcases h with h | h
      · exact absurd h.symm ha
      · have := ih hnd.2 h
        simp only [List.length_cons]
        omega

theorem get_mem (ps : Positions) (p : String × SavedPosition)
    (hnd : KeysNodup ps) (hp : p ∈ ps) : get ps p.1 = some p.2 := by
  induction ps with
  | nil => simp at hp
  | cons q ps ih =>
    obtain ⟨a, b⟩ := q
    unfold KeysNodup at hnd
    rw [keysOf_cons, List.nodup_cons] at hnd
    rcases List.mem_cons.mp hp with h | h
    · subst h
      simp [get]
    · have hne : a ≠ p.1 := by
        intro hh
        exact hnd.1 (hh ▸ List.mem_map_of_mem Prod.fst h)
      simp only [get, if_neg hne]
      exact ih hnd.2 h

theorem mem_keysOf_of_get (ps : Positions) (k : String) (v : SavedPosition)
    (h : get ps k = some v) : k ∈ keysOf ps := by
  induction ps with
  | nil => simp [get] at h
  | cons p ps ih =>
    obtain ⟨a, b⟩ := p
    by_cases ha : a = k
    · subst ha
      simp [keysOf_cons]
    · simp [get, ha] at h
      rw [keysOf_cons]
      exact List.mem_cons_of_mem _ (ih h)

/-! ## Lemmas: the eviction sort -/

theorem insertByTs_perm (ts : String → Int) (k : String) (l : List String) :
    List.Perm (insertByTs ts k l) (k :: l) := by
  induction l with
  | nil => simp [insertByTs]
  | cons x xs ih =>
    rw [insertByTs]
    by_cases h : ts k ≤ ts x
    · rw [if_pos h]
    · rw [if_neg h]
      exact (List.Perm.cons x ih).trans (List.Perm.swap k x xs)

theorem sortByTs_perm (ts : String → Int) (l : List String) :
    List.Perm (sortByTs ts l) l := by
  induction l with
  | nil => simp [sortByTs]
  | cons x xs ih =>
    rw [sortByTs, List.foldr_cons]
    exact (insertByTs_perm ts x _).trans (List.Perm.cons x ih)

theorem insertByTs_pairwise (ts : String → Int) (k : String) (l : List String)
    (h : l.Pairwise (fun a b => ts a ≤ ts b)) :
    (insertByTs ts k l).Pairwise (fun a b => ts a ≤ ts b) := by
  induction l with
  | nil => simp [insertByTs]
  | cons x xs ih =>
    rw [List.pairwise_cons] at h
    rw [insertByTs]
    by_cases hc : ts k ≤ ts x
    · rw [if_pos hc, List.pairwise_cons]
      refine ⟨?_, List.pairwise_cons.mpr h⟩
      intro y hy
      rcases List.mem_cons.mp hy with rfl | hy
      · exact hc
      · exact le_trans hc (h.1 y hy)
    · rw [if_neg hc, List.pairwise_cons]
      refine ⟨?_, ih h.2⟩
      intro y hy
      have hy' : y ∈ k :: xs := (insertByTs_perm ts k xs).mem_iff.mp hy
      rcases List.mem_cons.mp hy' with rfl | hy''
      · exact le_of_not_le hc
      · exact h.1 y hy''

theorem sortByTs_pairwise (ts : String → Int) (l : List String) :
    (sortByTs ts l).Pairwise (fun a b => ts a ≤ ts b) := by
  induction l with
  | nil => simp [sortByTs]
  | cons x xs ih =>
    rw [sortByTs, List.foldr_cons]
    exact insertByTs_pairwise ts x _ ih

/-! ## Lemmas: eviction -/

theorem foldl_deleteKey_filter (rem : List String) (ps : Positions) :
    rem.foldl deleteKey ps = ps.filter (fun p => !(rem.contains p.1)) := by
  induction rem generalizing ps with
  | nil => simp
  | cons r rem ih =>
    rw [List.foldl_cons, ih, deleteKey, List.filter_filter]
    apply List.filter_congr
    intro p _
    by_cases hpr : p.1 = r <;> simp [List.contains_cons, hpr, Bool.and_comm]

theorem length_foldl_deleteKey (rem : List String) (ps : Positions)
    (hnd : KeysNodup ps) (hrn : rem.Nodup)
    (hsub : ∀ r ∈ rem, r ∈ keysOf ps) :
    (rem.foldl deleteKey ps).length + rem.length = ps.length := by
  induction rem generalizing ps with
  | nil => simp
  | cons r rem ih =>
    rw [List.foldl_cons]
    rw [List.nodup_cons] at hrn
    have hr : r ∈ keysOf ps := hsub r (List.mem_cons_self r rem)
    have h1 : (deleteKey ps r).length + 1 = ps.length :=
      length_deleteKey_mem ps r hnd hr
    have hnd' : KeysNodup (deleteKey ps r) := keysNodup_deleteKey ps r hnd
    have hsub' : ∀ x ∈ rem, x ∈ keysOf (deleteKey ps r) := by
      intro x hx
      rw [keysOf_deleteKey, List.mem_filter]
      refine ⟨hsub x (List.mem_cons_of_mem r hx), ?_⟩
      simp only [bne_iff_ne, ne_eq]
      intro hxr
      exact hrn.1 (hxr ▸ hx)
    have h2 := ih (deleteKey ps r) hnd' hrn.2 hsub'
    simp only [List.length_cons]
    omega

theorem evict_of_le (maxP : Nat) (ps : Positions)
    (h : maxP = 0 ∨ ps.length ≤ maxP) : evict maxP ps = ps := by
  rcases h with h | h
  · simp [evict, h]
  · by_cases h0 : maxP = 0
    · simp [evict, h0]
    · simp [evict, h0, keysOf_length, h]

theorem evict_of_gt (maxP : Nat) (q : Positions) (h0 : maxP ≠ 0)
    (h : maxP < q.length) :
    evict maxP q =
      ((sortByTs (tsOf q) (keysOf q)).take (q.length - maxP)).foldl
        deleteKey q := by
  simp only [evict, keysOf_length]
  rw [if_neg h0, if_neg (by omega)]

theorem mem_foldl_deleteKey (rem : List String) (ps : Positions)
    (p : String × SavedPosition) :
    p ∈ rem.foldl deleteKey ps ↔ p ∈ ps ∧ p.1 ∉ rem := by
  rw [foldl_deleteKey_filter, List.mem_filter]
  simp

theorem foldl_deleteKey_sublist (rem : List String) (ps : Positions) :
    List.Sublist (rem.foldl deleteKey ps) ps := by
  rw [foldl_deleteKey_filter]
  exact List.filter_sublist ps

/-- Everything the eviction pass guarantees on an over-limit store with
pairwise-distinct timestamps: the result keeps exactly `maxP` entries of the
original mapping, and every evicted entry is strictly older than every kept
entry. -/
theorem evict_spec (maxP : Nat) (q : Positions) (hm : 0 < maxP)
    (hndQ : KeysNodup q) (hts : DistinctTs q) :
    (evict maxP q).length = min q.length maxP ∧
    KeysNodup (evict maxP q) ∧
    (∀ p ∈ evict maxP q, p ∈ q) ∧
    (∀ p ∈ evict maxP q, ∀ p2 ∈ q, p2 ∉ evict maxP q →
      p2.2.timestamp < p.2.timestamp) := by
  by_cases hle : q.length ≤ maxP
  · rw [evict_of_le maxP q (Or.inr hle)]
    refine ⟨(min_eq_left hle).symm, hndQ, fun p hp => hp, ?_⟩
    intro p _ p2 hp2 hnp2
    exact absurd hp2 hnp2
  · push_neg at hle
    have h0 : maxP ≠ 0 := by omega
    rw [evict_of_gt maxP q h0 hle]
    have hperm : List.Perm (sortByTs (tsOf q) (keysOf q)) (keysOf q) :=
      sortByTs_perm (tsOf q) (keysOf q)
    have hsnd : (sortByTs (tsOf q) (keysOf q)).Nodup :=
      hperm.nodup_iff.mpr hndQ
    have hslen : (sortByTs (tsOf q) (keysOf q)).length = q.length := by
      rw [hperm.length_eq, keysOf_length]
    have htrnd : ((sortByTs (tsOf q) (keysOf q)).take (q.length - maxP)).Nodup :=
      hsnd.sublist (List.take_sublist _ _)
    have htrsub : ∀ r ∈ (sortByTs (tsOf q) (keysOf q)).take (q.length - maxP),
        r ∈ keysOf q :=
      fun r hr => hperm.mem_iff.mp (List.mem_of_mem_take hr)
    have htrlen :
        ((sortByTs (tsOf q) (keysOf q)).take (q.length - maxP)).length
          = q.length - maxP := by
      rw [List.length_take, hslen]
      omega
    have hcount :=
      length_foldl_deleteKey
        ((sortByTs (tsOf q) (keysOf q)).take (q.length - maxP)) q hndQ htrnd
        htrsub
    have hsub := foldl_deleteKey_sublist
      ((sortByTs (tsOf q) (keysOf q)).take (q.length - maxP)) q
    refine ⟨?_, ?_, fun p hp => hsub.subset hp, ?_⟩
    · rw [min_eq_right (le_of_lt hle)]
      omega
    · exact hndQ.sublist (hsub.map Prod.fst)
    · intro p hp p2 hp2 hnp2
      rw [mem_foldl_deleteKey] at hp
      have hqmem : p2.1 ∈ (sortByTs (tsOf q) (keysOf q)).take (q.length - maxP) := by
        by_contra hqr
        exact hnp2 ((mem_foldl_deleteKey _ _ _).mpr ⟨hp2, hqr⟩)
      have hpkeys : p.1 ∈ keysOf q := List.mem_map_of_mem Prod.fst hp.1
      have hpsorted : p.1 ∈ sortByTs (tsOf q) (keysOf q) :=
        hperm.mem_iff.mpr hpkeys
      have hpdrop : p.1 ∈ (sortByTs (tsOf q) (keysOf q)).drop (q.length - maxP) := by
        have hsplit :
            (sortByTs (tsOf q) (keysOf q)).take (q.length - maxP)
              ++ (sortByTs (tsOf q) (keysOf q)).drop (q.length - maxP)
              = sortByTs (tsOf q) (keysOf q) :=
          List.take_append_drop _ _
        rcases List.mem_append.mp (hsplit ▸ hpsorted) with h | h
        · exact absurd h hp.2
        · exact h
      have hpw :
          ((sortByTs (tsOf q) (keysOf q)).take (q.length - maxP)
            ++ (sortByTs (tsOf q) (keysOf q)).drop (q.length - maxP)).Pairwise
            (fun a b => tsOf q a ≤ tsOf q b) := by
        rw [List.take_append_drop]
        exact sortByTs_pairwise (tsOf q) (keysOf q)
      have hle2 : tsOf q p2.1 ≤ tsOf q p.1 :=
        (List.pairwise_append.mp hpw).2.2 p2.1 hqmem p.1 hpdrop
      have htp : tsOf q p.1 = p.2.timestamp := by
        rw [tsOf, get_mem q p hndQ hp.1]
      have htq : tsOf q p2.1 = p2.2.timestamp := by
        rw [tsOf, get_mem q p2 hndQ hp2]
      have hnekey : p2.1 ≠ p.1 := by
        intro hh
        exact hp.2 (hh ▸ hqmem)
      have hnets : p2.2.timestamp ≠ p.2.timestamp := by
        intro heq
        exact hnekey (congrArg Prod.fst (nodup_map_inj hts hp2 hp.1 heq))
      rw [htp, htq] at hle2
      omega

end PositionStore

/-! ## Lemmas: the suppression counter -/

theorem runCounter_nonneg (c : Int) (tr : List CounterEvent) (h : 0 ≤ c) :
    0 ≤ runCounter c tr := by
  induction tr generalizing c with
  | nil => simpa [runCounter] using h
  | cons e es ih =>
    rw [runCounter]
    apply ih
    cases e with
    | inc =>
      simp only [counterStep]
      omega
    | dec =>
      simp only [counterStep]
      exact le_max_left 0 (c - 1)

/-- A clamped run ends at exactly zero when every suffix of the trace has at
least as many decrements as increments (which holds when every increment is
matched, injectively, by a later decrement — for instance its own 1000 ms
safety-expiry timer). -/
theorem runCounter_eq_zero (tr : List CounterEvent) (c : Int) (hc : 0 ≤ c)
    (hbal : c + balance tr ≤ 0) (hsuf : ∀ n, balance (tr.drop n) ≤ 0) :
    runCounter c tr = 0 := by
  induction tr generalizing c with
  | nil =>
    rw [runCounter]
    simp [balance] at hbal
    omega
  | cons e es ih =>
    rw [runCounter]
    have hsuf' : ∀ n, balance (es.drop n) ≤ 0 := by
      intro n
      have := hsuf (n + 1)
      simpa [List.drop_succ_cons] using this
    cases e with
    | inc =>
      have hb : balance (CounterEvent.inc :: es) = balance es + 1 := rfl
      rw [hb] at hbal
      have hstep : counterStep c CounterEvent.inc = c + 1 := rfl
      rw [hstep]
      exact ih (c + 1) (by omega) (by omega) hsuf'
    | dec =>
      have hb : balance (CounterEvent.dec :: es) = balance es - 1 := rfl
      rw [hb] at hbal
      by_cases h1 : 1 ≤ c
      · have hstep : counterStep c CounterEvent.dec = c - 1 := by
          simp only [counterStep]
          rw [max_eq_right (by omega : (0 : Int) ≤ c - 1)]
        rw [hstep]
        exact ih (c - 1) (by omega) (by omega) hsuf'
      · have hstep : counterStep c CounterEvent.dec = 0 := by
          simp only [counterStep]
          rw [max_eq_left (by omega : c - 1 ≤ (0 : Int))]
        rw [hstep]
        have hes : balance es ≤ 0 := by simpa using hsuf' 0
        exact ih 0 le_rfl (by omega) hsuf'

theorem runRaw_eq (c : Int) (tr : List RawEvent) :
    runRaw c tr = c + rawBalance tr := by
  induction tr generalizing c with
  | nil => simp [runRaw, rawBalance]
  | cons e es ih =>
    cases e with
    | inc =>
      rw [runRaw, ih]
      have hb : rawBalance (RawEvent.inc :: es) = rawBalance es + 1 := rfl
      rw [hb]
      simp only [rawStep]
      omega
    | dec =>
      rw [runRaw, ih]
      have hb : rawBalance (RawEvent.dec :: es) = rawBalance es - 1 := rfl
      rw [hb]
      simp only [rawStep]
      omega

theorem pollFrames_le (working : Nat → Bool) (a : Nat) :
    pollFrames working a ≤ 50 - a := by
  have key : ∀ m a, 50 - a ≤ m → pollFrames working a ≤ 50 - a := by
    intro m
    induction m with
    | zero =>
      intro a ha
      rw [pollFrames]
      split
      · next h => omega
      · exact Nat.zero_le _
    | succ m ih =>
      intro a ha
      rw [pollFrames]
      split
      · next h =>
        have := ih (a + 1) (by omega)
        omega
      · exact Nat.zero_le _
  exact key 50 a (by omega)

/-! ## Claim theorems -/

/-- Claim C1: with `maxPositions = N > 0`, every `set` call leaves at most `N`
entries, and (with pairwise-distinct timestamps, ties being unspecified) the
retained entries are exactly the `N` most-recently-timestamped ones: the
result is a sub-collection of the post-upsert mapping of size
`min (count) N` in which every evicted entry is strictly older than every
retained one; and the concrete `maxPositions = 2` scenario with
`a/b/c @ 1/2/3` retains exactly `{b, c}`. -/
theorem c1_eviction_bound (maxP : Nat) (ps : Positions) (k : String)
    (v : SavedPosition) (hm : 0 < maxP) (hnd : KeysNodup ps)
    (hts : DistinctTs (PositionStore.upsert ps k v)) :
    (PositionStore.set maxP ps k v).length ≤ maxP ∧
    KeysNodup (PositionStore.set maxP ps k v) ∧
    (PositionStore.set maxP ps k v).length
      = min (PositionStore.upsert ps k v).length maxP ∧
    (∀ p ∈ PositionStore.set maxP ps k v, p ∈ PositionStore.upsert ps k v) ∧
    (∀ p ∈ PositionStore.set maxP ps k v,
      ∀ p2 ∈ PositionStore.upsert ps k v,
        p2 ∉ PositionStore.set maxP ps k v →
          p2.2.timestamp < p.2.timestamp) ∧
    keysOf (PositionStore.set 2 (PositionStore.set 2
        (PositionStore.set 2 [] "a" posA) "b" posB) "c" posC) = ["b", "c"] := by
  have hndQ : KeysNodup (PositionStore.upsert ps k v) :=
    PositionStore.keysNodup_upsert ps k v hnd
  have hspec := PositionStore.evict_spec maxP (PositionStore.upsert ps k v) hm
    hndQ hts
  rw [show PositionStore.set maxP ps k v
      = PositionStore.evict maxP (PositionStore.upsert ps k v) from rfl]
  refine ⟨?_, hspec.2.1, hspec.1, hspec.2.2.1, hspec.2.2.2, by rfl⟩
  rw [hspec.1]
  exact min_le_right _ _

/-- Claim C1 witness. -/
theorem c1_witness : (PositionStore.set 2 [("a", posA)] "b" posB).length ≤ 2 :=
  (c1_eviction_bound 2 [("a", posA)] "b" posB (by decide) (by decide)
    (by decide)).1

/-- Claim C2 counterexample: in the part_003 tracker variant, the
`active-leaf-change` handler saves the departing leaf via `saveLeafPosition`
with no suppression check, so from a state with `filesOpening = 1` and the
initial layout not settled the handler still mutates the store. -/
theorem c2_counterexample :
    0 < st0.filesOpening ∧ st0.layoutReady = false ∧
    (PositionTracker.activeLeafChange st0 none 50 2).store ≠ st0.store := by
  refine ⟨by decide, rfl, ?_⟩
  intro hcontra
  rw [show (PositionTracker.activeLeafChange st0 none 50 2).store
      = [("note.md", recDemo)] from rfl] at hcontra
  exact List.cons_ne_nil _ _ hcontra

/-- Claim C2 (amended): capture triggers routed through the guarded save path
— scroll events (`handleScroll`), the periodic safety timer and the debounced
editor-change save (both `saveCurrentPosition`) — perform no store mutation
while the suppression counter is positive or the initial layout has not
settled.  (In the part_003 variant the leaving-a-view save is performed by
`saveLeafPosition` unconditionally; see the counterexample.) -/
theorem c2_suppressed_capture_no_mutation (layoutReady : Bool)
    (filesOpening : Int) (recentLeaf : Option ViewSnapshot) (now : Int)
    (maxP : Nat) (store : Positions)
    (h : layoutReady = false ∨ 0 < filesOpening) :
    PositionTracker.saveCurrentPosition layoutReady filesOpening recentLeaf
        now maxP store = store ∧
    PositionTracker.handleScroll layoutReady filesOpening recentLeaf now maxP
        store = store := by
  constructor
  · simp only [PositionTracker.saveCurrentPosition]
    rw [if_pos h]
  · simp only [PositionTracker.handleScroll]
    rw [if_pos h]

/-- Claim C2 witness. -/
theorem c2_witness :
    PositionTracker.saveCurrentPosition false 0 (some viewDemo) 50 2 [] = [] :=
  (c2_suppressed_capture_no_mutation false 0 (some viewDemo) 50 2 []
    (Or.inl rfl)).1

/-- Claim C3 counterexample: in the cited `src/tracker.ts` restore path the
apply step performs NO store re-write.  At a concrete state where the
restored key `note.md` holds the saved record, the completion step's
`Store.set` call list is empty — the re-write of the record under the same
key that the claim asserts does not happen in this variant (the mapping is
left unchanged only trivially, because nothing is written at all). -/
theorem c3_counterexample :
    PositionTracker.getFileKey viewDemo = some "note.md" ∧
    PositionStore.get [("note.md", recDemo)] "note.md" = some recDemo ∧
    (PositionTracker.restoreApplyTracker true [("note.md", recDemo)] viewDemo
        recDemo applied0 1).setCalls = [] ∧
    (PositionTracker.restoreApplyTracker true [("note.md", recDemo)] viewDemo
        recDemo applied0 1).store = [("note.md", recDemo)] :=
  ⟨rfl, rfl, rfl, rfl⟩

/-- Claim C3 (amended): the apply-step re-write exists only in the part_004
restore variant; the `src/tracker.ts` (and part_003) apply step performs no
store call at all.  In every variant the stored record for the restored key
is unchanged when the apply step completes: the `src/tracker.ts` step passes
the mapping through untouched with an empty `Store.set` call list while
mutating only the view and decrementing the counter; the part_004 step's
re-write is exactly `Store.set` of the just-looked-up record under the
re-derived (same) key, which is an identity on the mapping (when the store is
within its configured bound) and leaves the key mapped to the same record —
so restore followed by re-capture during the settle window is idempotent on
the store in every variant. -/
theorem c3_restore_apply_store_effect :
    (∀ (restoreCursor : Bool) (store : Positions) (view : ViewSnapshot)
        (saved : SavedPosition) (prior : PositionTracker.AppliedView)
        (c : Int),
      (PositionTracker.restoreApplyTracker restoreCursor store view saved
          prior c).store = store ∧
      (PositionTracker.restoreApplyTracker restoreCursor store view saved
          prior c).setCalls = [] ∧
      (PositionTracker.restoreApplyTracker restoreCursor store view saved
          prior c).filesOpening = c - 1) ∧
    (∀ (store : Positions) (view : ViewSnapshot) (saved : SavedPosition)
        (maxP : Nat) (k : String),
      PositionTracker.getFileKey view = some k →
      PositionStore.get store k = some saved →
      (maxP = 0 ∨ store.length ≤ maxP) →
      PositionTracker.restoreApply store view saved maxP
          = PositionStore.set maxP store k saved ∧
      PositionTracker.restoreApply store view saved maxP = store ∧
      PositionStore.get (PositionTracker.restoreApply store view saved maxP) k
          = some saved) := by
  refine ⟨fun restoreCursor store view saved prior c => ⟨rfl, rfl, rfl⟩, ?_⟩
  intro store view saved maxP k hk hs hb
  have h1 : PositionTracker.restoreApply store view saved maxP
      = PositionStore.set maxP store k saved := by
    simp [PositionTracker.restoreApply, hk]
  have h2 : PositionStore.set maxP store k saved = store := by
    rw [PositionStore.set, PositionStore.upsert_self_eq store k saved hs]
    exact PositionStore.evict_of_le maxP store hb
  exact ⟨h1, h1.trans h2, by rw [h1, h2]; exact hs⟩

/-- Claim C3 witness. -/
theorem c3_witness :
    (PositionTracker.restoreApplyTracker false [("note.md", recDemo)]
        viewDemo recDemo applied0 1).store = [("note.md", recDemo)] ∧
    PositionTracker.restoreApply [("note.md", recDemo)] viewDemo recDemo 2
      = [("note.md", recDemo)] :=
  ⟨(c3_restore_apply_store_effect.1 false [("note.md", recDemo)] viewDemo
      recDemo applied0 1).1,
   (c3_restore_apply_store_effect.2 [("note.md", recDemo)] viewDemo recDemo 2
      "note.md" rfl rfl (Or.inr (by decide))).2.1⟩

/-- Claim C4 counterexample: the content `"7"` parses as JSON (`JSON.parse`
returns the number 7) but is not an object of SavedPosition records, yet
`load()` assigns it to the store unvalidated — the store does not equal the
empty mapping, so a JSON-parseable invalid payload is NOT treated like a
missing file. -/
theorem c4_counterexample :
    jsonParse "7" = some (JsonValue.num 7) ∧
    PositionStore.load true true (some "7") jsonParse (JsonValue.obj [])
      = JsonValue.num 7 ∧
    PositionStore.load true true (some "7") jsonParse (JsonValue.obj [])
      ≠ JsonValue.obj [] := by
  refine ⟨rfl, rfl, ?_⟩
  intro h
  rw [show PositionStore.load true true (some "7") jsonParse
      (JsonValue.obj []) = JsonValue.num 7 from rfl] at h
  exact JsonValue.noConfusion h

/-- Claim C4 (amended): unreadable content (the read throws) and content that
fails to parse as JSON both leave the freshly-started store equal to the
empty mapping without raising, and a subsequent `set` and `flush` succeed
normally; but content that parses as JSON is assigned without structural
validation (see the counterexample). -/
theorem c4_corrupt_load_recovery (parse : String → Option JsonValue)
    (data : String) (k : String) (v : SavedPosition) (maxP : Nat)
    (hdata : data ≠ "") (hparse : parse data = none) :
    PositionStore.load true true none parse (JsonValue.obj [])
      = JsonValue.obj [] ∧
    PositionStore.load true true (some data) parse (JsonValue.obj [])
      = JsonValue.obj [] ∧
    PositionStore.set maxP [] k v = [(k, v)] ∧
    PositionStore.flush [(k, v)] true true
      = some (PositionStore.stringifyPositions [(k, v)]) := by
  refine ⟨rfl, ?_, ?_, rfl⟩
  · simp [PositionStore.load, hdata, hparse]
  · rw [PositionStore.set,
      show PositionStore.upsert [] k v = [(k, v)] from rfl]
    apply PositionStore.evict_of_le
    rcases Nat.eq_zero_or_pos maxP with h | h
    · exact Or.inl h
    · exact Or.inr (by simpa using h)

/-- Claim C4 witness. -/
theorem c4_witness :
    PositionStore.load true true (some "x") jsonParse (JsonValue.obj [])
      = JsonValue.obj [] :=
  (c4_corrupt_load_recovery jsonParse "x" "k" posA 2 (by decide) rfl).2.1

/-- Claim C5 counterexample: a source-mode capture where both the ephemeral
scroll value and the editor scroll info are unavailable still produces a
record — with `scroll` and `scrollTop` both unset — and `saveCurrentPosition`
passes it to `Store.set`; it is not discarded. -/
theorem c5_counterexample :
    PositionTracker.capturePosition 7 viewNoScroll = some recNoScroll ∧
    recNoScroll.scroll = none ∧ recNoScroll.scrollTop = none ∧
    PositionTracker.saveCurrentPosition true 0 (some viewNoScroll) 7 2 []
      = [("note.md", recNoScroll)] :=
  ⟨rfl, rfl, rfl, rfl⟩

/-- Claim C5 (amended): every record produced by `capturePosition` comes from
a markdown view; a reading-mode capture always carries the preview element's
`scrollTop` (and is discarded when the element is missing); a source-mode
capture copies the ephemeral scroll and editor scroll-info values as-is —
when both are unavailable the record is still produced, carrying only cursor
and timestamp (see the counterexample). -/
theorem c5_capture_positional_fields (now : Int) (view : ViewSnapshot)
    (p : SavedPosition)
    (h : PositionTracker.capturePosition now view = some p) :
    view.viewType = "markdown" ∧
    (view.mode = "source" →
      p.scroll = view.ephemeralScroll ∧ p.scrollTop = view.scrollInfoTop ∧
      p.cursor.isSome = true) ∧
    (view.mode ≠ "source" →
      p.scroll = none ∧
      ∃ st, view.previewScrollTop = some st ∧ p.scrollTop = some st) := by
  by_cases hvt : view.viewType = "markdown"
  · by_cases hmode : view.mode = "source"
    · rw [PositionTracker.capturePosition, if_pos hvt, if_pos hmode] at h
      obtain rfl := Option.some.inj h
      exact ⟨hvt, fun _ => ⟨rfl, rfl, rfl⟩, fun hn => absurd hmode hn⟩
    · rw [PositionTracker.capturePosition, if_pos hvt, if_neg hmode] at h
      cases hpv : view.previewScrollTop with
      | none =>
        rw [hpv] at h
        exact absurd h (by simp)
      | some st =>
        rw [hpv] at h
        obtain rfl := Option.some.inj h
        exact ⟨hvt, fun hs => absurd hs hmode,
          fun _ => ⟨rfl, st, rfl, rfl⟩⟩
  · rw [PositionTracker.capturePosition, if_neg hvt] at h
    exact absurd h (by simp)

/-- Claim C5 witness. -/
theorem c5_witness : viewDemo.viewType = "markdown" :=
  (c5_capture_positional_fields 50 viewDemo recDemo rfl).1

/-- Claim C6 counterexample: with `oldKey = newKey = "a"` present in the
store, `rename` removes the record instead of keeping
`get(newKey) = prior get(oldKey)` — the claim's universal quantification over
every pair of keys fails on the diagonal. -/
theorem c6_counterexample :
    PositionStore.get [("a", posA)] "a" = some posA ∧
    PositionStore.get (PositionStore.rename [("a", posA)] "a" "a") "a"
      = none :=
  ⟨rfl, rfl⟩

/-- Claim C6 (amended): for every pair of DISTINCT keys, `rename` with an
absent `oldKey` is a no-op, and with a present `oldKey` moves the record:
`get(newKey)` afterwards returns the prior `get(oldKey)` value and
`get(oldKey)` becomes absent.  (For `oldKey = newKey` present, the record is
deleted instead — claim C9.) -/
theorem c6_rename_spec (ps : Positions) (oldKey newKey : String)
    (hne : oldKey ≠ newKey) :
    (PositionStore.get ps oldKey = none →
      PositionStore.rename ps oldKey newKey = ps) ∧
    (∀ v, PositionStore.get ps oldKey = some v →
      PositionStore.get (PositionStore.rename ps oldKey newKey) newKey
          = some v ∧
      PositionStore.get (PositionStore.rename ps oldKey newKey) oldKey
          = none) := by
  constructor
  · intro h
    simp [PositionStore.rename, h]
  · intro v h
    have hr : PositionStore.rename ps oldKey newKey
        = PositionStore.deleteKey (PositionStore.upsert ps newKey v) oldKey := by
      simp [PositionStore.rename, h]
    constructor
    · rw [hr, PositionStore.get_deleteKey_ne _ _ _ (Ne.symm hne),
        PositionStore.get_upsert_self]
    · rw [hr, PositionStore.get_deleteKey_self]

/-- Claim C6 witness. -/
theorem c6_witness :
    PositionStore.get (PositionStore.rename [("a", posA)] "a" "b") "b"
      = some posA ∧
    PositionStore.get (PositionStore.rename [("a", posA)] "a" "b") "a"
      = none :=
  (c6_rename_spec [("a", posA)] "a" "b" (by decide)).2 posA rfl

/-- Claim C7: key derivation yields `doc.md#0-1` and `doc.md#0-2` — distinct
keys — for split-ancestry index paths `[0,1]` and `[0,2]` of the same
document, and the bare document path (no suffix) whenever the view slot sits
at the first/primary index at every ancestry level. -/
theorem c7_key_uniqueness (fp : String) (path : List Nat)
    (h : ∀ i ∈ path, i = 0) :
    PositionTracker.fileKeyFor fp path = fp ∧
    PositionTracker.fileKeyFor "doc.md" [0, 1] = "doc.md#0-1" ∧
    PositionTracker.fileKeyFor "doc.md" [0, 2] = "doc.md#0-2" ∧
    PositionTracker.fileKeyFor "doc.md" [0, 1]
      ≠ PositionTracker.fileKeyFor "doc.md" [0, 2] := by
  refine ⟨?_, by rfl, by rfl, by decide⟩
  have hall : path.all (fun i => i == 0) = true :=
    List.all_eq_true.mpr (fun i hi => by simpa using h i hi)
  simp [PositionTracker.fileKeyFor, PositionTracker.getSplitId, hall]

/-- Claim C7 witness. -/
theorem c7_witness : PositionTracker.fileKeyFor "doc.md" [0, 0] = "doc.md" :=
  (c7_key_uniqueness "doc.md" [0, 0] (by decide)).1

/-- Claim C8: (i) the part_003/part_004 `active-leaf-change` handler pairs
every increment of the suppression counter with a scheduled unconditional
clamped decrement at `now + 1000` ms; (ii) whenever every increment in a
handler trace is matched by a later decrement (which the safety timers
guarantee, expressed as every trace suffix having balance ≤ 0), the clamped
counter ends at exactly 0 — suppression cannot persist; (iii) the
`src/tracker.ts` restore polling loop gives up after at most 50
animation-frame attempts, after which the position is applied and the counter
decremented — its own bounded route to release. -/
theorem c8_suppression_bounded :
    (∀ (st : PositionTracker.TrackerState) (newLeaf : Option ViewSnapshot)
        (now : Int) (maxP : Nat),
      (PositionTracker.activeLeafChange st newLeaf now maxP).filesOpening
          = st.filesOpening + 1 ∧
      (PositionTracker.activeLeafChange st newLeaf now maxP).pendingDecAt
          = st.pendingDecAt ++ [now + 1000]) ∧
    (∀ tr : List CounterEvent,
      (∀ n, balance (tr.drop n) ≤ 0) → runCounter 0 tr = 0) ∧
    (∀ working : Nat → Bool, pollFrames working 0 ≤ 50) := by
  refine ⟨fun st newLeaf now maxP => ⟨rfl, rfl⟩, ?_, ?_⟩
  · intro tr h
    exact runCounter_eq_zero tr 0 le_rfl (by simpa using h 0) h
  · intro working
    simpa using pollFrames_le working 0

/-- Claim C8 witness. -/
theorem c8_witness :
    (PositionTracker.activeLeafChange st0 none 0 2).filesOpening
        = st0.filesOpening + 1 ∧
    runCounter 0 [CounterEvent.inc, CounterEvent.dec] = 0 ∧
    pollFrames (fun _ => true) 0 ≤ 50 :=
  ⟨(c8_suppression_bounded.1 st0 none 0 2).1,
   c8_suppression_bounded.2.1 [CounterEvent.inc, CounterEvent.dec] (by
     intro n
     match n with
     | 0 => decide
     | 1 => decide
     | n + 2 =>
       rw [List.drop_eq_nil_of_le (by simp)]
       decide),
   c8_suppression_bounded.2.2 (fun _ => true)⟩

/-- Claim C9: `rename(k, k)` on a present key deletes the record — the
JS sequence `positions[k] = positions[k]; delete positions[k]` removes the
entry, so `get(k)` becomes absent and the size drops by one. -/
theorem c9_self_rename_deletes (ps : Positions) (k : String)
    (v : SavedPosition) (hnd : KeysNodup ps)
    (h : PositionStore.get ps k = some v) :
    PositionStore.get (PositionStore.rename ps k k) k = none ∧
    (PositionStore.rename ps k k).length + 1 = ps.length := by
  have hr : PositionStore.rename ps k k = PositionStore.deleteKey ps k := by
    simp [PositionStore.rename, h, PositionStore.upsert_self_eq ps k v h]
  refine ⟨?_, ?_⟩
  · rw [hr, PositionStore.get_deleteKey_self]
  · rw [hr]
    exact PositionStore.length_deleteKey_mem ps k hnd
      (PositionStore.mem_keysOf_of_get ps k v h)

/-- Claim C9 witness. -/
theorem c9_witness :
    PositionStore.get (PositionStore.rename [("a", posA)] "a" "a") "a"
        = none ∧
    (PositionStore.rename [("a", posA)] "a" "a").length + 1
        = ([("a", posA)] : Positions).length :=
  c9_self_rename_deletes [("a", posA)] "a" posA (by decide) rfl

/-- Claim C10: the suppression counter never goes negative: (i) with the
part_003/part_004 clamped decrement `Math.max(0, filesOpening - 1)`, any
event trace keeps the counter ≥ 0 from any ≥ 0 start; (ii) with the
`src/tracker.ts` raw `filesOpening--`, any trace in which every prefix has at
least as many increments as decrements (each decrement runs in the
continuation of its own preceding increment) keeps the counter ≥ 0 at every
prefix. -/
theorem c10_counter_nonneg :
    (∀ (tr : List CounterEvent) (c : Int), 0 ≤ c → 0 ≤ runCounter c tr) ∧
    (∀ tr : List RawEvent, (∀ n, 0 ≤ rawBalance (tr.take n)) →
      ∀ n, 0 ≤ runRaw 0 (tr.take n)) := by
  refine ⟨fun tr c h => runCounter_nonneg c tr h, ?_⟩
  intro tr h n
  rw [runRaw_eq]
  simpa using h n

/-- Claim C10 witness. -/
theorem c10_witness :
    0 ≤ runCounter 0 [CounterEvent.dec, CounterEvent.dec, CounterEvent.inc] ∧
    0 ≤ runRaw 0 ([RawEvent.inc, RawEvent.dec].take 2) :=
  ⟨c10_counter_nonneg.1 [CounterEvent.dec, CounterEvent.dec,
      CounterEvent.inc] 0 le_rfl,
   c10_counter_nonneg.2 [RawEvent.inc, RawEvent.dec] (by
     intro n
     match n with
     | 0 => decide
     | 1 => decide
     | n + 2 =>
       rw [List.take_of_length_le (by simp)]
       decide) 2⟩

end RememberScroll
